import Mathlib

/-!
Shallow embedding of `src/scope.rs`: the `Scope` naming core of the
tensorflow/rust bindings (hierarchical name scopes, sibling-name
uniquification, and per-scope operation-name minting).

Modelling choices:
* The `Rc<RefCell<...>>` shared registries (`children_names : HashSet<String>`
  and `op_names : HashMap<String, i32>`) are modelled by an explicit `World`
  store: a registry is an index into `World.sets` (sibling-name sets, as
  lists without duplicates) or `World.maps` (op-count maps, as association
  lists).  Two scopes share a registry exactly when they hold the same index.
* The `Graph` contents are irrelevant to this module (the scope never
  inspects them); a graph is a handle index, and `World.graphs` counts the
  graphs allocated so far, so that "a fresh graph was / was not allocated"
  is observable.
* The `i32` counters are modelled as `Nat`.  Counts start at 0 and are only
  ever incremented one at a time, and no claim under verification involves
  more than a handful of increments, so two's-complement wraparound is never
  in play.
* The two unbounded `loop`s are modelled with an explicit fuel parameter
  returning `Option`; the fuel actually passed (`s.length + 1` for the
  sibling-name loop, `mintFuel` for the mint loop) is proved sufficient
  below (`uniquifyLoop_fuel`, `mintLoop_fuel`), so the `Option.getD` /
  fallback branches are dead code.
-/

namespace ScopeRs

/-- Embedding of the private function `join` of scope.rs: joins `left` and
`right` using the separator, leaving the separator out if either side is
the empty string. -/
def join (sep left right : String) : String :=
  if left = "" then right
  else if right = "" then left
  else left ++ sep ++ right

/-- The string `format!("{}_{}", name, i)` used by both uniquification
loops in scope.rs. -/
def numbered (name : String) (i : Nat) : String :=
  name ++ "_" ++ Nat.repr i

/-- The store backing the `Rc<RefCell<...>>` cells shared between scopes.
`sets` holds the `children_names` registries, `maps` the `op_names`
registries; `graphs` is the number of graphs allocated so far. -/
structure World where
  graphs : Nat
  sets : List (List String)
  maps : List (List (String × Nat))
deriving DecidableEq, Repr

/-- Embedding of the `Scope` struct of scope.rs.  The `Rc` fields are
registry indices into a `World`. -/
structure Scope where
  graph : Nat
  name : String
  childrenNames : Nat
  opName : String
  opNames : Nat
deriving DecidableEq, Repr

instance : Inhabited Scope :=
  ⟨⟨0, "", 0, "", 0⟩⟩

/-- Contents of the sibling-name set registry `i`. -/
def World.setAt (w : World) (i : Nat) : List String :=
  w.sets.getD i []

/-- Contents of the op-count map registry `i`. -/
def World.mapAt (w : World) (i : Nat) : List (String × Nat) :=
  w.maps.getD i []

/-- Overwrite the sibling-name set registry `i`. -/
def World.updateSet (w : World) (i : Nat) (s : List String) : World :=
  { w with sets := w.sets.set i s }

/-- Overwrite the op-count map registry `i`. -/
def World.updateMap (w : World) (i : Nat) (m : List (String × Nat)) : World :=
  { w with maps := w.maps.set i m }

/-- Allocate a fresh sibling-name set registry (a new `Rc<RefCell<HashSet>>`),
returning its index. -/
def World.allocSet (w : World) (s : List String) : Nat × World :=
  (w.sets.length, { w with sets := w.sets ++ [s] })

/-- Allocate a fresh op-count map registry (a new `Rc<RefCell<HashMap>>`),
returning its index. -/
def World.allocMap (w : World) (m : List (String × Nat)) : Nat × World :=
  (w.maps.length, { w with maps := w.maps ++ [m] })

/-- Allocate a fresh graph (`Rc::new(RefCell::new(Graph::new()))`),
returning its handle. -/
def World.allocGraph (w : World) : Nat × World :=
  (w.graphs, { w with graphs := w.graphs + 1 })

/-- Lookup in an op-count association list (`HashMap::get` semantics:
first matching key). -/
def mapLookup : List (String × Nat) → String → Option Nat
  | [], _ => none
  | p :: rest, k => if p.1 = k then some p.2 else mapLookup rest k

/-- Overwrite the value at a key in an op-count association list
(first matching entry; `HashMap` keys are unique so this is
`*e.get_mut() = v`). -/
def mapUpdate : List (String × Nat) → String → Nat → List (String × Nat)
  | [], _, _ => []
  | p :: rest, k, v => if p.1 = k then (k, v) :: rest else p :: mapUpdate rest k v

/-- Keys of an op-count association list. -/
def keys (m : List (String × Nat)) : List String :=
  m.map Prod.fst

/-- Embedding of `Scope::new_root_scope`: empty path, empty op-name
override, and three freshly allocated resources (graph, sibling-name set,
op-count map). -/
def newRootScope (w : World) : Scope × World :=
  let (g, w1) := w.allocGraph
  let (cs, w2) := w1.allocSet []
  let (om, w3) := w2.allocMap []
  (⟨g, "", cs, "", om⟩, w3)

/-- The suffix-search loop of `Scope::uniquify`: starting at counter `i`,
find the first `i` such that `"{name}_{i}"` is not in the sibling-name set
`s`.  Fuel-indexed; `uniquifyLoop_isSome` below shows fuel `s.length + 1`
always suffices, so the `none` case is unreachable from `uniquify`. -/
def uniquifyLoop (s : List String) (name : String) : Nat → Nat → Option Nat
  | 0, _ => none
  | fuel + 1, i =>
    if numbered name i ∈ s then uniquifyLoop s name fuel (i + 1) else some i

/-- Embedding of `Scope::uniquify`: try to insert the raw `name` into the
current scope's sibling-name set; on collision, insert the first fresh
`"{name}_{i}"` (`i` counting from 1) instead.  Failed insertion attempts
leave the set unchanged, the one successful insertion appends. -/
def uniquify (sc : Scope) (name : String) (w : World) : String × World :=
  let s := w.setAt sc.childrenNames
  if name ∈ s then
    let i := (uniquifyLoop s name (s.length + 1) 1).getD 0
    let r := numbered name i
    (r, w.updateSet sc.childrenNames (s ++ [r]))
  else
    (name, w.updateSet sc.childrenNames (s ++ [name]))

/-- Embedding of `Scope::new_sub_scope`.  An empty requested name keeps the
path and shares the op-count map; a non-empty name is uniquified against
the current scope's sibling-name set and extends the path (with the `/`
elided when the current path is empty), and the op-count map is reset
fresh.  In both cases the derived scope gets a freshly allocated (empty)
sibling-name set, and the graph handle and op-name override are inherited
unchanged. -/
def newSubScope (sc : Scope) (name : String) (w : World) : Scope × World :=
  if name = "" then
    let (cid, w1) := w.allocSet []
    (⟨sc.graph, sc.name, cid, sc.opName, sc.opNames⟩, w1)
  else
    let (uniq, w1) := uniquify sc name w
    let newName := if sc.name = "" then uniq else sc.name ++ "/" ++ uniq
    let (cid, w2) := w1.allocSet []
    let (mid, w3) := w2.allocMap []
    (⟨sc.graph, newName, cid, sc.opName, mid⟩, w3)

/-- Embedding of `Scope::with_op_name`: same path, same shared registries,
new op-name override; the world is untouched. -/
def withOpName (sc : Scope) (name : String) (w : World) : Scope × World :=
  (⟨sc.graph, sc.name, sc.childrenNames, name, sc.opNames⟩, w)

/-- The mint loop of `Scope::get_unique_name_for_op`: if the candidate key
is vacant, insert it with count 0 and return it; if occupied with count
`c`, bump the stored count to `c + 1` and retry with `"{name}_{c+1}"`
(built from the base `name`, not from the occupied key).  Fuel-indexed;
`mintLoop_isSome` below shows the fuel `mintFuel` always suffices. -/
def mintLoop (name : String) : Nat → List (String × Nat) → String → Option (String × List (String × Nat))
  | 0, _, _ => none
  | fuel + 1, m, cand =>
    match mapLookup m cand with
    | none => some (cand, m ++ [(cand, 0)])
    | some c => mintLoop name fuel (mapUpdate m cand (c + 1)) (numbered name (c + 1))

/-- Length of the longest key of an op-count map (0 if empty). -/
def maxKeyLen (m : List (String × Nat)) : Nat :=
  (m.map (fun p => p.1.length)).foldr max 0

/-- A sufficient fuel for `mintLoop` on map `m`: with
`M = 10 ^ maxKeyLen m` (a strict upper bound on any counter whose decimal
form fits in a key of `m`), each occupied step either decreases
`sum (M - count)` or produces a candidate no key can equal. -/
def mintFuel (m : List (String × Nat)) : Nat :=
  (m.map (fun p => 10 ^ maxKeyLen m - p.2)).sum + 2

/-- Embedding of `Scope::get_unique_name_for_op`: resolve the base name
(the op-name override if non-empty, else the supplied default), run the
mint loop against the scope's shared op-count map, and return the final
candidate joined onto the scope's path.  The `none` fallback is dead code
(`mintLoop_isSome`). -/
def getUniqueNameForOp (sc : Scope) (defaultName : String) (w : World) : String × World :=
  let name := if sc.opName = "" then defaultName else sc.opName
  let m := w.mapAt sc.opNames
  match mintLoop name (mintFuel m) m name with
  | some (r, m') => (join "/" sc.name r, w.updateMap sc.opNames m')
  | none => (name, w)

/-- An action on the scope tree: create a root scope, derive a sub-scope
or an op-name override from the `i`-th scope created so far, or mint an
op name on it.  Actions with an out-of-range index are no-ops. -/
inductive Act where
  | root : Act
  | sub : Nat → String → Act
  | withName : Nat → String → Act
  | mint : Nat → String → Act
deriving DecidableEq, Repr

/-- A state of the scope system: the shared store, every scope created so
far (scopes are immutable value-like handles, so the list only grows), and
the log of minted names, each tagged with the op-count registry it was
minted against. -/
structure St where
  world : World
  scopes : List Scope
  minted : List (Nat × String)
deriving DecidableEq, Repr

/-- The initial state: no graphs, no registries, no scopes. -/
def St.init : St :=
  ⟨⟨0, [], []⟩, [], []⟩

/-- One step of the scope system. -/
def step (st : St) (a : Act) : St :=
  match a with
  | .root =>
    let (sc, w') := newRootScope st.world
    ⟨w', st.scopes ++ [sc], st.minted⟩
  | .sub i name =>
    match st.scopes[i]? with
    | none => st
    | some sc =>
      let (sc', w') := newSubScope sc name st.world
      ⟨w', st.scopes ++ [sc'], st.minted⟩
  | .withName i name =>
    match st.scopes[i]? with
    | none => st
    | some sc =>
      let (sc', w') := withOpName sc name st.world
      ⟨w', st.scopes ++ [sc'], st.minted⟩
  | .mint i d =>
    match st.scopes[i]? with
    | none => st
    | some sc =>
      let (r, w') := getUniqueNameForOp sc d st.world
      ⟨w', st.scopes, st.minted ++ [(sc.opNames, r)]⟩

/-- Run a list of actions from a state. -/
def run (acts : List Act) (st : St) : St :=
  acts.foldl step st

/-- A requested sub-scope name is slash-free; other actions are
unconstrained.  This is the side condition of the amended path
well-formedness claim. -/
def ActSlashFree : Act → Prop
  | .sub _ name => '/' ∉ name.data
  | _ => True

/-- Well-formed path: a slash-join of zero or more non-empty, slash-free
segments (the root's empty path for zero segments). -/
def PathWF (p : String) : Prop :=
  ∃ segs : List String,
    (∀ seg ∈ segs, seg ≠ "" ∧ '/' ∉ seg.data) ∧
    p = segs.foldl (fun a b => join "/" a b) ""

/-- A string neither begins nor ends with a slash and has no two
consecutive slashes. -/
def NoSlashArtifacts (p : String) : Prop :=
  p.data.head? ≠ some '/' ∧ p.data.getLast? ≠ some '/' ∧
    p.data.Chain' (fun a b => a = '/' → b ≠ '/')

/-- The invariant maintained by every reachable state of the scope system:
registry indices held by scopes are allocated; scopes sharing an op-count
map have identical paths; each minted full name decomposes, for every
scope sharing the registry it was minted against, as the scope's path
joined with a key now present in that registry; and names minted against
one registry never repeat. -/
structure Inv (st : St) : Prop where
  scopeIds : ∀ sc ∈ st.scopes,
    sc.childrenNames < st.world.sets.length ∧ sc.opNames < st.world.maps.length
  sharedPath : ∀ sc1 ∈ st.scopes, ∀ sc2 ∈ st.scopes,
    sc1.opNames = sc2.opNames → sc1.name = sc2.name
  mintedIds : ∀ p ∈ st.minted, p.1 < st.world.maps.length
  mintedKeys : ∀ p ∈ st.minted, ∀ sc ∈ st.scopes, sc.opNames = p.1 →
    ∃ k, k ∈ keys (st.world.mapAt p.1) ∧ p.2 = join "/" sc.name k
  mintedDistinct : st.minted.Pairwise (fun a b => a.1 = b.1 → a.2 ≠ b.2)

/-! Helper lemmas: strings, decimal representations, and the `numbered`
candidate strings. -/

theorem string_ext {s t : String} (h : s.data = t.data) : s = t := by
  cases s; cases t; exact congrArg String.mk h

theorem toDigitsCore_eq_digits :
    ∀ (f n : Nat) (acc : List Char), 0 < n → n < 10 ^ f →
      Nat.toDigitsCore 10 f n acc = ((Nat.digits 10 n).map Nat.digitChar).reverse ++ acc := by
  intro f
  induction f with
  | zero =>
    intro n acc h0 hf
    simp only [pow_zero, Nat.lt_one_iff] at hf
    omega
  | succ f ih =>
    intro n acc h0 hf
    have hdig : Nat.digits 10 n = n % 10 :: Nat.digits 10 (n / 10) :=
      Nat.digits_def' (by norm_num) h0
    by_cases hq : n / 10 = 0
    · simp [Nat.toDigitsCore, hq, hdig]
    · have hlt : n / 10 < 10 ^ f := by
        rw [Nat.div_lt_iff_lt_mul (by norm_num : 0 < 10)]
        calc n < 10 ^ (f + 1) := hf
        _ = 10 ^ f * 10 := by ring
      have hrec := ih (n / 10) (Nat.digitChar (n % 10) :: acc) (Nat.pos_of_ne_zero hq) hlt
      simp [Nat.toDigitsCore, hq, hrec, hdig]

theorem repr_eq_digits (n : Nat) (h0 : 0 < n) :
    Nat.repr n = (((Nat.digits 10 n).map Nat.digitChar).reverse).asString := by
  have hb : n < 10 ^ (n + 1) := by
    calc n < 2 ^ n := Nat.lt_two_pow n
    _ ≤ 10 ^ n := Nat.pow_le_pow_left (by norm_num) n
    _ ≤ 10 ^ (n + 1) := Nat.pow_le_pow_right (by norm_num) (Nat.le_succ n)
  show (Nat.toDigits 10 n).asString = _
  rw [Nat.toDigits, toDigitsCore_eq_digits (n + 1) n [] h0 hb, List.append_nil]

theorem digitChar_inj_lt :
    ∀ d1 < 10, ∀ d2 < 10, Nat.digitChar d1 = Nat.digitChar d2 → d1 = d2 := by decide

theorem map_digitChar_inj :
    ∀ l1 l2 : List Nat, (∀ x ∈ l1, x < 10) → (∀ x ∈ l2, x < 10) →
      l1.map Nat.digitChar = l2.map Nat.digitChar → l1 = l2 := by
  intro l1
  induction l1 with
  | nil => intro l2 _ _ h; cases l2 <;> simp_all
  | cons a t ih =>
    intro l2 h1 h2 h
    cases l2 with
    | nil => simp_all
    | cons b t2 =>
      simp only [List.map_cons, List.cons.injEq] at h
      have hab := digitChar_inj_lt a (h1 a (by simp)) b (h2 b (by simp)) h.1
      have ht := ih t2 (fun x hx => h1 x (by simp [hx])) (fun x hx => h2 x (by simp [hx])) h.2
      simp [hab, ht]

theorem repr_ne_zero_str (n : Nat) (h0 : 0 < n) : Nat.repr n ≠ "0" := by
  intro h
  rw [repr_eq_digits n h0] at h
  have hd : ((Nat.digits 10 n).map Nat.digitChar).reverse = ['0'] := by
    have := List.asString_inj.mp (h.trans (by rfl : ("0" : String) = ['0'].asString))
    exact this
  have hmap : (Nat.digits 10 n).map Nat.digitChar = ['0'] := by
    have := congrArg List.reverse hd
    simpa using this
  have hdig : Nat.digits 10 n = [0] := by
    have := map_digitChar_inj (Nat.digits 10 n) [0]
      (fun x hx => Nat.digits_lt_base (by norm_num) hx) (by simp) (by simpa using hmap)
    exact this
  have : n = Nat.ofDigits 10 (Nat.digits 10 n) := (Nat.ofDigits_digits 10 n).symm
  rw [hdig] at this
  simp [Nat.ofDigits] at this
  omega

theorem repr_injective : ∀ m n : Nat, Nat.repr m = Nat.repr n → m = n := by
  intro m n h
  rcases Nat.eq_zero_or_pos m with hm | hm
  · rcases Nat.eq_zero_or_pos n with hn | hn
    · omega
    · subst hm
      exact absurd h.symm (repr_ne_zero_str n hn)
  · rcases Nat.eq_zero_or_pos n with hn | hn
    · subst hn
      exact absurd h (repr_ne_zero_str m hm)
    · rw [repr_eq_digits m hm, repr_eq_digits n hn] at h
      have hrev := List.asString_inj.mp h
      have hmap := congrArg List.reverse hrev
      simp only [List.reverse_reverse] at hmap
      have hdig := map_digitChar_inj (Nat.digits 10 m) (Nat.digits 10 n)
        (fun x hx => Nat.digits_lt_base (by norm_num) hx)
        (fun x hx => Nat.digits_lt_base (by norm_num) hx) hmap
      calc m = Nat.ofDigits 10 (Nat.digits 10 m) := (Nat.ofDigits_digits 10 m).symm
      _ = Nat.ofDigits 10 (Nat.digits 10 n) := by rw [hdig]
      _ = n := Nat.ofDigits_digits 10 n

theorem lt_pow_repr_length (n : Nat) : n < 10 ^ (Nat.repr n).length := by
  rcases Nat.eq_zero_or_pos n with h0 | h0
  · subst h0; decide
  · rw [repr_eq_digits n h0, List.length_asString, List.length_reverse, List.length_map]
    exact Nat.lt_base_pow_length_digits (by norm_num)

theorem slash_not_mem_repr (n : Nat) : '/' ∉ (Nat.repr n).data := by
  rcases Nat.eq_zero_or_pos n with h0 | h0
  · subst h0; decide
  · rw [repr_eq_digits n h0]
    intro hmem
    have hdata : (((Nat.digits 10 n).map Nat.digitChar).reverse).asString.data
        = ((Nat.digits 10 n).map Nat.digitChar).reverse :=
      List.toList_asString _
    rw [hdata] at hmem
    simp only [List.mem_reverse, List.mem_map] at hmem
    obtain ⟨d, hd, hdc⟩ := hmem
    have hlt : d < 10 := Nat.digits_lt_base (by norm_num) hd
    have hno : ∀ d' < 10, Nat.digitChar d' ≠ '/' := by decide
    exact hno d hlt hdc

theorem numbered_data (name : String) (i : Nat) :
    (numbered name i).data = name.data ++ '_' :: (Nat.repr i).data := by
  show (name ++ "_" ++ Nat.repr i).data = _
  rw [String.data_append, String.data_append]
  have h1 : ("_" : String).data = ['_'] := rfl
  rw [h1]
  simp

theorem numbered_inj {name : String} {i j : Nat}
    (h : numbered name i = numbered name j) : i = j := by
  have hd := congrArg String.data h
  rw [numbered_data, numbered_data] at hd
  have := List.append_cancel_left hd
  have hrepr : (Nat.repr i).data = (Nat.repr j).data := by
    simpa using this
  exact repr_injective i j (string_ext hrepr)

theorem numbered_ne_of_ne {name : String} {i j : Nat} (h : i ≠ j) :
    numbered name i ≠ numbered name j :=
  fun he => h (numbered_inj he)

theorem numbered_length (name : String) (i : Nat) :
    (numbered name i).length = name.length + 1 + (Nat.repr i).length := by
  show (name ++ "_" ++ Nat.repr i).length = _
  simp [String.length_append]
  rfl

theorem length_pos_of_ne_empty {s : String} (h : s ≠ "") : 0 < s.length := by
  cases s with
  | mk data =>
    cases data with
    | nil => exact absurd rfl h
    | cons c cs => simp [String.length]

/-! Pigeonhole: a finite sibling-name set cannot contain every candidate
`"{name}_{i+d}"` for `d` up to its own size, since those strings are
pairwise distinct. -/

theorem exists_fresh_index (s : List String) (name : String) (i : Nat) :
    ∃ d, d ≤ s.length ∧ numbered name (i + d) ∉ s := by
  by_contra hc
  push_neg at hc
  have hsub : ((List.range (s.length + 1)).map (fun d => numbered name (i + d))) ⊆ s := by
    intro x hx
    simp only [List.mem_map, List.mem_range] at hx
    obtain ⟨d, hd, rfl⟩ := hx
    exact hc d (by omega)
  have hinj : Function.Injective (fun d => numbered name (i + d)) := by
    intro a b hab
    have := numbered_inj hab
    omega
  have hnd := (List.nodup_range (s.length + 1)).map hinj
  have hlen := (List.subperm_of_subset hnd hsub).length_le
  simp at hlen

/-! The sibling-name suffix-search loop: fuel `s.length + 1` suffices, the
result is fuel-independent beyond that, and the computation is total. -/

theorem uniquifyLoop_isSome (s : List String) (name : String) :
    ∀ (f i : Nat), (∃ d, d < f ∧ numbered name (i + d) ∉ s) →
      (uniquifyLoop s name f i).isSome = true := by
  intro f
  induction f with
  | zero =>
    intro i h
    obtain ⟨d, hd, _⟩ := h
    omega
  | succ f ih =>
    intro i h
    obtain ⟨d, hd, hfresh⟩ := h
    unfold uniquifyLoop
    by_cases hm : numbered name i ∈ s
    · simp only [hm, if_true]
      apply ih
      cases d with
      | zero => simp only [Nat.add_zero] at hfresh; exact absurd hm hfresh
      | succ d' =>
        exact ⟨d', by omega, by rw [show i + 1 + d' = i + (d' + 1) by omega]; exact hfresh⟩
    · simp [hm]

theorem uniquifyLoop_fuel (s : List String) (name : String) (i : Nat) :
    (uniquifyLoop s name (s.length + 1) i).isSome = true := by
  apply uniquifyLoop_isSome
  obtain ⟨d, hd, hfresh⟩ := exists_fresh_index s name i
  exact ⟨d, by omega, hfresh⟩

theorem uniquifyLoop_mono (s : List String) (name : String) :
    ∀ (f i r : Nat), uniquifyLoop s name f i = some r →
      ∀ extra, uniquifyLoop s name (f + extra) i = some r := by
  intro f
  induction f with
  | zero => intro i r h; simp [uniquifyLoop] at h
  | succ f ih =>
    intro i r h extra
    rw [show f + 1 + extra = (f + extra) + 1 by omega]
    unfold uniquifyLoop at h ⊢
    by_cases hm : numbered name i ∈ s
    · simp only [hm, if_true] at h ⊢
      exact ih (i + 1) r h extra
    · simp only [hm, if_false] at h ⊢
      exact h

/-! Association-list facts for the op-count map. -/

theorem keys_mapUpdate (k : String) (v : Nat) :
    ∀ m, keys (mapUpdate m k v) = keys m := by
  intro m
  induction m with
  | nil => rfl
  | cons p rest ih =>
    by_cases hp : p.1 = k
    · simp [mapUpdate, hp, keys]
    · simp only [mapUpdate, hp, if_false, keys, List.map_cons]
      simp only [keys] at ih
      rw [ih]

theorem mapLookup_eq_none_iff (k : String) :
    ∀ m, mapLookup m k = none ↔ k ∉ keys m := by
  intro m
  induction m with
  | nil => simp [mapLookup, keys]
  | cons p rest ih =>
    by_cases hp : p.1 = k
    · simp [mapLookup, hp, keys]
    · simp only [mapLookup, hp, if_false, keys, List.map_cons, List.mem_cons]
      simp only [keys] at ih
      rw [ih]
      constructor
      · intro hk hor
        rcases hor with hor | hor
        · exact hp hor.symm
        · exact hk hor
      · intro hk hmem
        exact hk (Or.inr hmem)

theorem sum_mapUpdate (M : Nat) :
    ∀ (m : List (String × Nat)) (k : String) (c v : Nat), mapLookup m k = some c →
      ((mapUpdate m k v).map (fun p => M - p.2)).sum + (M - c)
        = (m.map (fun p => M - p.2)).sum + (M - v) := by
  intro m
  induction m with
  | nil => intro k c v h; simp [mapLookup] at h
  | cons p rest ih =>
    intro k c v h
    by_cases hp : p.1 = k
    · simp only [mapLookup, hp, if_true, Option.some.injEq] at h
      subst h
      simp only [mapUpdate, hp, if_true, List.map_cons, List.sum_cons]
      omega
    · simp only [mapLookup, hp, if_false] at h
      simp only [mapUpdate, hp, if_false, List.map_cons, List.sum_cons]
      have := ih k c v h
      omega

/-! The mint loop: the fuel `mintFuel` suffices, the result is
fuel-independent beyond it, and a successful run returns a key that was
vacant and appends it (with count 0) while preserving all other keys. -/

theorem mintLoop_isSome_aux (name : String) (M : Nat) :
    ∀ (f : Nat) (m : List (String × Nat)) (cand : String),
      (∀ j, numbered name j ∈ keys m → j < M) →
      (m.map (fun p => M - p.2)).sum + 2 ≤ f →
      (mintLoop name f m cand).isSome = true := by
  intro f
  induction f with
  | zero => intro m cand _ h2; omega
  | succ f ih =>
    intro m cand hM hf
    unfold mintLoop
    cases hlook : mapLookup m cand with
    | none => simp
    | some c =>
      simp only []
      by_cases hc : c < M
      · apply ih
        · intro j hj
          rw [keys_mapUpdate] at hj
          exact hM j hj
        · have hsum := sum_mapUpdate M m cand c (c + 1) hlook
          omega
      · have hsum := sum_mapUpdate M m cand c (c + 1) hlook
        cases f with
        | zero => omega
        | succ f' =>
          unfold mintLoop
          have hfresh : mapLookup (mapUpdate m cand (c + 1)) (numbered name (c + 1)) = none := by
            rw [mapLookup_eq_none_iff, keys_mapUpdate]
            intro hmem
            have := hM (c + 1) hmem
            omega
          rw [hfresh]
          simp

theorem mintLoop_fuel (name : String) (m : List (String × Nat)) (cand : String)
    (hM : ∀ j, numbered name j ∈ keys m → j < 10 ^ maxKeyLen m) :
    (mintLoop name (mintFuel m) m cand).isSome = true := by
  apply mintLoop_isSome_aux name (10 ^ maxKeyLen m) (mintFuel m) m cand hM
  unfold mintFuel
  exact Nat.le_refl _

theorem mintLoop_mono (name : String) :
    ∀ (f : Nat) (m : List (String × Nat)) (cand : String) r,
      mintLoop name f m cand = some r →
      ∀ extra, mintLoop name (f + extra) m cand = some r := by
  intro f
  induction f with
  | zero => intro m cand r h; simp [mintLoop] at h
  | succ f ih =>
    intro m cand r h extra
    rw [show f + 1 + extra = (f + extra) + 1 by omega]
    unfold mintLoop at h ⊢
    cases hlook : mapLookup m cand with
    | none => rw [hlook] at h; exact h
    | some c => rw [hlook] at h; exact ih _ _ r h extra

theorem mintLoop_spec (name : String) :
    ∀ (f : Nat) (m : List (String × Nat)) (cand r : String) (m' : List (String × Nat)),
      mintLoop name f m cand = some (r, m') →
      r ∉ keys m ∧ ∃ mPre, m' = mPre ++ [(r, 0)] ∧ keys mPre = keys m := by
  intro f
  induction f with
  | zero => intro m cand r m' h; simp [mintLoop] at h
  | succ f ih =>
    intro m cand r m' h
    unfold mintLoop at h
    cases hlook : mapLookup m cand with
    | none =>
      rw [hlook] at h
      simp only [Option.some.injEq, Prod.mk.injEq] at h
      obtain ⟨hr, hm'⟩ := h
      subst hr
      subst hm'
      exact ⟨(mapLookup_eq_none_iff cand m).mp hlook, m, rfl, rfl⟩
    | some c =>
      rw [hlook] at h
      have hrec := ih _ _ _ _ h
      rw [keys_mapUpdate] at hrec
      exact hrec

/-! Keys bound the counters whose decimal form can appear in them. -/

theorem maxKeyLen_cons (p : String × Nat) (rest : List (String × Nat)) :
    maxKeyLen (p :: rest) = max p.1.length (maxKeyLen rest) := rfl

theorem length_le_maxKeyLen :
    ∀ (m : List (String × Nat)) (k : String), k ∈ keys m → k.length ≤ maxKeyLen m := by
  intro m
  induction m with
  | nil => simp [keys]
  | cons p rest ih =>
    intro k hk
    simp only [keys, List.map_cons, List.mem_cons] at hk
    rw [maxKeyLen_cons]
    rcases hk with hk | hk
    · rw [hk]
      exact Nat.le_max_left _ _
    · exact Nat.le_trans (ih k hk) (Nat.le_max_right _ _)

theorem numbered_key_bound (name : String) (m : List (String × Nat)) :
    ∀ j, numbered name j ∈ keys m → j < 10 ^ maxKeyLen m := by
  intro j hj
  have h1 := length_le_maxKeyLen m _ hj
  have h2 : (Nat.repr j).length ≤ maxKeyLen m := by
    rw [numbered_length] at h1
    omega
  calc j < 10 ^ (Nat.repr j).length := lt_pow_repr_length j
  _ ≤ 10 ^ maxKeyLen m := Nat.pow_le_pow_right (by norm_num) h2

/-! Specification of one mint call. -/

theorem getUniqueNameForOp_spec (sc : Scope) (d : String) (w : World) :
    ∃ k mPre,
      k ∉ keys (w.mapAt sc.opNames) ∧ keys mPre = keys (w.mapAt sc.opNames) ∧
      getUniqueNameForOp sc d w
        = (join "/" sc.name k, w.updateMap sc.opNames (mPre ++ [(k, 0)])) := by
  have hsome := mintLoop_fuel (if sc.opName = "" then d else sc.opName)
    (w.mapAt sc.opNames) (if sc.opName = "" then d else sc.opName)
    (numbered_key_bound _ _)
  cases hml : mintLoop (if sc.opName = "" then d else sc.opName)
      (mintFuel (w.mapAt sc.opNames)) (w.mapAt sc.opNames)
      (if sc.opName = "" then d else sc.opName) with
  | none => rw [hml] at hsome; simp at hsome
  | some pr =>
    obtain ⟨r, m'⟩ := pr
    obtain ⟨hfresh, mPre, hm', hkeys⟩ := mintLoop_spec _ _ _ _ _ _ hml
    refine ⟨r, mPre, hfresh, hkeys, ?_⟩
    rw [← hm']
    simp only [getUniqueNameForOp]
    rw [hml]

/-! Injectivity of `join` in its right argument, for a fixed path. -/

theorem join_right_inj {p a b : String} (h : join "/" p a = join "/" p b) : a = b := by
  unfold join at h
  by_cases hp : p = ""
  · simpa [hp] using h
  · by_cases ha : a = "" <;> by_cases hb : b = ""
    · rw [ha, hb]
    · exfalso
      simp only [if_neg hp, if_pos ha, if_neg hb] at h
      have hlen := congrArg String.length h
      rw [String.length_append, String.length_append] at hlen
      have hsl : ("/" : String).length = 1 := rfl
      have hbpos := length_pos_of_ne_empty hb
      omega
    · exfalso
      simp only [if_neg hp, if_neg ha, if_pos hb] at h
      have hlen := congrArg String.length h
      rw [String.length_append, String.length_append] at hlen
      have hsl : ("/" : String).length = 1 := rfl
      have hapos := length_pos_of_ne_empty ha
      omega
    · simp only [if_neg hp, if_neg ha, if_neg hb] at h
      have hd := congrArg String.data h
      rw [String.data_append, String.data_append, String.data_append,
        String.data_append, List.append_assoc, List.append_assoc] at hd
      have := List.append_cancel_left (List.append_cancel_left hd)
      exact string_ext this

/-! List/store access lemmas. -/

theorem getD_set_self {α : Type} (l : List α) (i : Nat) (x d : α) (h : i < l.length) :
    (l.set i x).getD i d = x := by
  simp [List.getD, List.getElem?_set_self, h]

theorem getD_set_ne {α : Type} (l : List α) (i j : Nat) (x d : α) (h : i ≠ j) :
    (l.set i x).getD j d = l.getD j d := by
  simp [List.getD, List.getElem?_set_ne h]

theorem getD_append_left {α : Type} (l l' : List α) (i : Nat) (d : α) (h : i < l.length) :
    (l ++ l').getD i d = l.getD i d := by
  simp [List.getD, List.getElem?_append_left h]

theorem getD_append_len {α : Type} (l : List α) (x d : α) :
    (l ++ [x]).getD l.length d = x := by
  simp [List.getD]

/-! Store access lemmas for `World`. -/

theorem mapAt_updateSet (w : World) (i j : Nat) (s : List String) :
    (w.updateSet i s).mapAt j = w.mapAt j := rfl

theorem mapAt_allocSet (w : World) (s : List String) (j : Nat) :
    (w.allocSet s).2.mapAt j = w.mapAt j := rfl

theorem mapAt_allocGraph (w : World) (j : Nat) :
    w.allocGraph.2.mapAt j = w.mapAt j := rfl

theorem mapAt_allocMap_lt (w : World) (m : List (String × Nat)) (j : Nat)
    (h : j < w.maps.length) : (w.allocMap m).2.mapAt j = w.mapAt j :=
  getD_append_left _ _ _ _ h

theorem mapAt_updateMap_self (w : World) (i : Nat) (m : List (String × Nat))
    (h : i < w.maps.length) : (w.updateMap i m).mapAt i = m :=
  getD_set_self _ _ _ _ h

theorem mapAt_updateMap_ne (w : World) (i j : Nat) (m : List (String × Nat))
    (h : i ≠ j) : (w.updateMap i m).mapAt j = w.mapAt j :=
  getD_set_ne _ _ _ _ _ h

theorem keys_append (a b : List (String × Nat)) : keys (a ++ b) = keys a ++ keys b := by
  simp [keys]

/-! Characterizations of the derivation operations. -/

theorem newRootScope_eq (w : World) :
    newRootScope w = (⟨w.graphs, "", w.sets.length, "", w.maps.length⟩,
      { graphs := w.graphs + 1, sets := w.sets ++ [[]], maps := w.maps ++ [[]] }) := rfl

theorem newSubScope_empty_eq (sc : Scope) (w : World) :
    newSubScope sc "" w
      = (⟨sc.graph, sc.name, w.sets.length, sc.opName, sc.opNames⟩,
         { graphs := w.graphs, sets := w.sets ++ [[]], maps := w.maps }) := rfl

theorem uniquify_eq (sc : Scope) (name : String) (w : World) :
    ∃ u, (u = name ∨ ∃ i, u = numbered name i) ∧ uniquify sc name w
      = (u, w.updateSet sc.childrenNames (w.setAt sc.childrenNames ++ [u])) := by
  by_cases h : name ∈ w.setAt sc.childrenNames
  · refine ⟨numbered name ((uniquifyLoop (w.setAt sc.childrenNames) name
      ((w.setAt sc.childrenNames).length + 1) 1).getD 0), Or.inr ⟨_, rfl⟩, ?_⟩
    simp [uniquify, h]
  · exact ⟨name, Or.inl rfl, by simp [uniquify, h]⟩

theorem newSubScope_nonempty_eq (sc : Scope) (name : String) (w : World) (h : name ≠ "") :
    ∃ u, (u = name ∨ ∃ i, u = numbered name i) ∧ newSubScope sc name w
      = (⟨sc.graph, if sc.name = "" then u else sc.name ++ "/" ++ u,
            w.sets.length, sc.opName, w.maps.length⟩,
         { graphs := w.graphs,
           sets := (w.sets.set sc.childrenNames (w.setAt sc.childrenNames ++ [u])) ++ [[]],
           maps := w.maps ++ [[]] }) := by
  obtain ⟨u, hsrc, hu⟩ := uniquify_eq sc name w
  refine ⟨u, hsrc, ?_⟩
  simp only [newSubScope, h, if_neg, hu, World.allocSet, World.allocMap, World.updateSet]
  simp [List.length_set]

/-! The reachable-state invariant: established initially and preserved by
every step. -/

theorem inv_init : Inv St.init := by
  constructor <;> simp [St.init]

theorem inv_step_root (st : St) (h : Inv st) : Inv (step st .root) := by
  obtain ⟨hids, hpath, hmids, hmkeys, hdist⟩ := h
  have hstep : step st .root
      = ⟨{ graphs := st.world.graphs + 1, sets := st.world.sets ++ [[]],
           maps := st.world.maps ++ [[]] },
         st.scopes ++ [⟨st.world.graphs, "", st.world.sets.length, "", st.world.maps.length⟩],
         st.minted⟩ := rfl
  rw [hstep]
  constructor
  · intro sc hsc
    simp only [List.mem_append, List.mem_singleton] at hsc
    simp only [List.length_append, List.length_singleton]
    rcases hsc with hsc | hsc
    · have := hids sc hsc
      omega
    · subst hsc
      simp
  · intro sc1 h1 sc2 h2 hop
    simp only [List.mem_append, List.mem_singleton] at h1 h2
    rcases h1 with h1 | h1 <;> rcases h2 with h2 | h2
    · exact hpath sc1 h1 sc2 h2 hop
    · exfalso
      subst h2
      have := (hids sc1 h1).2
      simp only at hop
      omega
    · exfalso
      subst h1
      have := (hids sc2 h2).2
      simp only at hop
      omega
    · subst h1; subst h2; rfl
  · intro p hp
    have := hmids p hp
    simp only [List.length_append, List.length_singleton]
    omega
  · intro p hp sc hsc hop
    simp only [List.mem_append, List.mem_singleton] at hsc
    rcases hsc with hsc | hsc
    · obtain ⟨k, hk, hjoin⟩ := hmkeys p hp sc hsc hop
      refine ⟨k, ?_, hjoin⟩
      show k ∈ keys ((st.world.maps ++ [[]]).getD p.1 [])
      rw [getD_append_left _ _ _ _ (hmids p hp)]
      exact hk
    · exfalso
      subst hsc
      simp only at hop
      have := hmids p hp
      omega
  · exact hdist

theorem inv_step_withName (st : St) (i : Nat) (name : String) (h : Inv st) :
    Inv (step st (.withName i name)) := by
  obtain ⟨hids, hpath, hmids, hmkeys, hdist⟩ := h
  cases hsc : st.scopes[i]? with
  | none =>
    simp only [step, hsc]
    exact ⟨hids, hpath, hmids, hmkeys, hdist⟩
  | some sc =>
    have hmem : sc ∈ st.scopes := List.getElem?_mem hsc
    simp only [step, hsc, withOpName]
    constructor
    · intro sc' hsc'
      simp only [List.mem_append, List.mem_singleton] at hsc'
      rcases hsc' with hsc' | hsc'
      · exact hids sc' hsc'
      · subst hsc'
        exact hids sc hmem
    · intro sc1 h1 sc2 h2 hop
      simp only [List.mem_append, List.mem_singleton] at h1 h2
      rcases h1 with h1 | h1 <;> rcases h2 with h2 | h2
      · exact hpath sc1 h1 sc2 h2 hop
      · subst h2
        exact hpath sc1 h1 sc hmem hop
      · subst h1
        exact hpath sc hmem sc2 h2 hop
      · subst h1; subst h2; rfl
    · exact hmids
    · intro p hp sc' hsc' hop
      simp only [List.mem_append, List.mem_singleton] at hsc'
      rcases hsc' with hsc' | hsc'
      · exact hmkeys p hp sc' hsc' hop
      · subst hsc'
        exact hmkeys p hp sc hmem hop
    · exact hdist

theorem inv_step_sub (st : St) (i : Nat) (name : String) (h : Inv st) :
    Inv (step st (.sub i name)) := by
  obtain ⟨hids, hpath, hmids, hmkeys, hdist⟩ := h
  cases hsc : st.scopes[i]? with
  | none =>
    simp only [step, hsc]
    exact ⟨hids, hpath, hmids, hmkeys, hdist⟩
  | some sc =>
    have hmem : sc ∈ st.scopes := List.getElem?_mem hsc
    by_cases hname : name = ""
    · subst hname
      simp only [step, hsc, newSubScope_empty_eq]
      constructor
      · intro sc' hsc'
        simp only [List.mem_append, List.mem_singleton] at hsc'
        simp only [List.length_append, List.length_singleton]
        rcases hsc' with hsc' | hsc'
        · have := hids sc' hsc'
          omega
        · subst hsc'
          have := hids sc hmem
          simp only
          omega
      · intro sc1 h1 sc2 h2 hop
        simp only [List.mem_append, List.mem_singleton] at h1 h2
        rcases h1 with h1 | h1 <;> rcases h2 with h2 | h2
        · exact hpath sc1 h1 sc2 h2 hop
        · subst h2
          exact hpath sc1 h1 sc hmem hop
        · subst h1
          exact hpath sc hmem sc2 h2 hop
        · subst h1; subst h2; rfl
      · exact hmids
      · intro p hp sc' hsc' hop
        simp only [List.mem_append, List.mem_singleton] at hsc'
        rcases hsc' with hsc' | hsc'
        · exact hmkeys p hp sc' hsc' hop
        · subst hsc'
          exact hmkeys p hp sc hmem hop
      · exact hdist
    · obtain ⟨u, _, hu⟩ := newSubScope_nonempty_eq sc name st.world hname
      simp only [step, hsc, hu]
      constructor
      · intro sc' hsc'
        simp only [List.mem_append, List.mem_singleton] at hsc'
        simp only [List.length_append, List.length_singleton, List.length_set]
        rcases hsc' with hsc' | hsc'
        · have := hids sc' hsc'
          omega
        · subst hsc'
          simp
      · intro sc1 h1 sc2 h2 hop
        simp only [List.mem_append, List.mem_singleton] at h1 h2
        rcases h1 with h1 | h1 <;> rcases h2 with h2 | h2
        · exact hpath sc1 h1 sc2 h2 hop
        · exfalso
          subst h2
          have := (hids sc1 h1).2
          simp only at hop
          omega
        · exfalso
          subst h1
          have := (hids sc2 h2).2
          simp only at hop
          omega
        · subst h1; subst h2; rfl
      · intro p hp
        have := hmids p hp
        simp only [List.length_append, List.length_singleton]
        omega
      · intro p hp sc' hsc' hop
        simp only [List.mem_append, List.mem_singleton] at hsc'
        rcases hsc' with hsc' | hsc'
        · obtain ⟨k, hk, hjoin⟩ := hmkeys p hp sc' hsc' hop
          refine ⟨k, ?_, hjoin⟩
          show k ∈ keys ((st.world.maps ++ [[]]).getD p.1 [])
          rw [getD_append_left _ _ _ _ (hmids p hp)]
          exact hk
        · exfalso
          subst hsc'
          simp only at hop
          have := hmids p hp
          omega
      · exact hdist

theorem inv_step_mint (st : St) (i : Nat) (dflt : String) (h : Inv st) :
    Inv (step st (.mint i dflt)) := by
  obtain ⟨hids, hpath, hmids, hmkeys, hdist⟩ := h
  cases hsc : st.scopes[i]? with
  | none =>
    simp only [step, hsc]
    exact ⟨hids, hpath, hmids, hmkeys, hdist⟩
  | some sc =>
    have hmem : sc ∈ st.scopes := List.getElem?_mem hsc
    have hid := (hids sc hmem).2
    obtain ⟨k, mPre, hfresh, hkeys, heq⟩ := getUniqueNameForOp_spec sc dflt st.world
    simp only [step, hsc, heq]
    have hmapAtEq : (st.world.updateMap sc.opNames (mPre ++ [(k, 0)])).mapAt sc.opNames
        = mPre ++ [(k, 0)] := mapAt_updateMap_self _ _ _ hid
    constructor
    · intro sc' hsc'
      have := hids sc' hsc'
      simpa [World.updateMap] using this
    · intro sc1 h1 sc2 h2 hop
      exact hpath sc1 h1 sc2 h2 hop
    · intro p hp
      simp only [List.mem_append, List.mem_singleton] at hp
      rcases hp with hp | hp
      · have := hmids p hp
        simpa [World.updateMap] using this
      · subst hp
        simpa [World.updateMap] using hid
    · intro p hp sc' hsc' hop
      simp only [List.mem_append, List.mem_singleton] at hp
      rcases hp with hp | hp
      · obtain ⟨k', hk', hjoin⟩ := hmkeys p hp sc' hsc' hop
        refine ⟨k', ?_, hjoin⟩
        by_cases hpid : sc.opNames = p.1
        · rw [← hpid, hmapAtEq, keys_append]
          rw [← hpid] at hk'
          rw [hkeys]
          exact List.mem_append_left _ hk'
        · rw [mapAt_updateMap_ne _ _ _ _ hpid]
          exact hk'
      · subst hp
        simp only at hop
        refine ⟨k, ?_, ?_⟩
        · show k ∈ keys ((st.world.updateMap sc.opNames (mPre ++ [(k, 0)])).mapAt sc.opNames)
          rw [hmapAtEq, keys_append]
          apply List.mem_append_right
          simp [keys]
        · show join "/" sc.name k = join "/" sc'.name k
          have hname := hpath sc' hsc' sc hmem hop
          rw [hname]
    · rw [List.pairwise_append]
      refine ⟨hdist, List.pairwise_singleton _ _, ?_⟩
      intro a ha b hb
      simp only [List.mem_singleton] at hb
      subst hb
      intro hab
      obtain ⟨k', hk', hjoin⟩ := hmkeys a ha sc hmem hab.symm
      simp only
      rw [hjoin]
      intro hcontra
      have := join_right_inj hcontra
      subst this
      rw [← hab.symm] at hk'
      exact hfresh hk'

theorem inv_step (st : St) (a : Act) (h : Inv st) : Inv (step st a) := by
  cases a with
  | root => exact inv_step_root st h
  | sub i name => exact inv_step_sub st i name h
  | withName i name => exact inv_step_withName st i name h
  | mint i dflt => exact inv_step_mint st i dflt h

theorem inv_run : ∀ (acts : List Act) (st : St), Inv st → Inv (run acts st) := by
  intro acts
  induction acts with
  | nil => intro st h; exact h
  | cons a rest ih =>
    intro st h
    exact ih (step st a) (inv_step st a h)

/-! Path well-formedness: every reachable path (under slash-free requested
names) is a slash-join of non-empty slash-free segments, and such joins
have no leading, trailing or doubled slashes. -/

theorem ne_empty_of_data_ne {s : String} (h : s.data ≠ []) : s ≠ "" := by
  intro he
  subst he
  exact h rfl

theorem data_ne_of_ne_empty {s : String} (h : s ≠ "") : s.data ≠ [] := by
  intro hd
  exact h (string_ext (by rw [hd]))

theorem numbered_ne_empty (name : String) (i : Nat) : numbered name i ≠ "" := by
  apply ne_empty_of_data_ne
  rw [numbered_data]
  simp

theorem slash_not_mem_numbered (name : String) (i : Nat) (h : '/' ∉ name.data) :
    '/' ∉ (numbered name i).data := by
  rw [numbered_data]
  intro hmem
  simp only [List.mem_append, List.mem_cons] at hmem
  rcases hmem with hmem | hmem | hmem
  · exact h hmem
  · exact absurd hmem (by decide)
  · exact slash_not_mem_repr i hmem

theorem mem_of_getLast?_some {l : List Char} {c : Char} (h : l.getLast? = some c) : c ∈ l := by
  have hm : c ∈ l.getLast? := by rw [Option.mem_def]; exact h
  obtain ⟨hne, heq⟩ := List.mem_getLast?_eq_getLast hm
  rw [heq]
  exact List.getLast_mem hne

theorem mem_of_head?_some {l : List Char} {c : Char} (h : l.head? = some c) : c ∈ l := by
  cases l with
  | nil => simp at h
  | cons a t =>
    simp only [List.head?_cons, Option.some.injEq] at h
    rw [← h]
    exact List.mem_cons_self a t

theorem chain'_of_slash_free {l : List Char} (h : '/' ∉ l) :
    l.Chain' (fun a b => a = '/' → b ≠ '/') := by
  induction l with
  | nil => simp
  | cons a t ih =>
    cases t with
    | nil => simp
    | cons b t' =>
      rw [List.chain'_cons]
      constructor
      · intro ha
        exact absurd (ha ▸ List.mem_cons_self a (b :: t')) h
      · exact ih (fun hm => h (List.mem_cons_of_mem a hm))

theorem noSlash_of_slash_free {u : String} (h : '/' ∉ u.data) : NoSlashArtifacts u := by
  refine ⟨?_, ?_, chain'_of_slash_free h⟩
  · intro hh
    exact h (mem_of_head?_some hh)
  · intro hh
    exact h (mem_of_getLast?_some hh)

theorem data_slash_append (p u : String) :
    (p ++ "/" ++ u).data = p.data ++ '/' :: u.data := by
  rw [String.data_append, String.data_append]
  have h : ("/" : String).data = ['/'] := rfl
  rw [h]
  simp

theorem noSlash_join {p u : String} (hp : NoSlashArtifacts p) (hu1 : u ≠ "")
    (hu2 : '/' ∉ u.data) : NoSlashArtifacts (join "/" p u) := by
  obtain ⟨hph, hpl, hpc⟩ := hp
  unfold join
  by_cases hpe : p = ""
  · rw [if_pos hpe]
    exact noSlash_of_slash_free hu2
  · rw [if_neg hpe, if_neg hu1]
    have hdata := data_slash_append p u
    have hpd : p.data ≠ [] := data_ne_of_ne_empty hpe
    have hud : u.data ≠ [] := data_ne_of_ne_empty hu1
    refine ⟨?_, ?_, ?_⟩
    · rw [hdata]
      cases hpcase : p.data with
      | nil => exact absurd hpcase hpd
      | cons c t =>
        rw [hpcase] at hph
        simpa using hph
    · rw [hdata, List.getLast?_append_cons]
      cases hucase : u.data with
      | nil => exact absurd hucase hud
      | cons c t =>
        rw [List.getLast?_cons_cons]
        intro hl
        exact hu2 (hucase ▸ mem_of_getLast?_some hl)
    · rw [hdata, List.chain'_append]
      refine ⟨hpc, ?_, ?_⟩
      · cases hucase : u.data with
        | nil => simp
        | cons c t =>
          rw [List.chain'_cons]
          constructor
          · intro _
            intro hc
            exact hu2 (hucase ▸ (hc ▸ List.mem_cons_self c t))
          · exact chain'_of_slash_free (fun hm => hu2 (by rw [hucase]; exact hm))
      · intro x hx y hy
        simp only [List.head?_cons, Option.mem_def, Option.some.injEq] at hy
        intro hxs
        exfalso
        rw [Option.mem_def] at hx
        rw [hxs] at hx
        exact hpl hx

theorem pathWF_empty : PathWF "" := ⟨[], by simp, rfl⟩

theorem pathWF_extend {p : String} (u : String) (hp : PathWF p) (hu1 : u ≠ "")
    (hu2 : '/' ∉ u.data) : PathWF (join "/" p u) := by
  obtain ⟨segs, hsegs, hfold⟩ := hp
  refine ⟨segs ++ [u], ?_, ?_⟩
  · intro seg hseg
    rcases List.mem_append.mp hseg with hseg | hseg
    · exact hsegs seg hseg
    · rw [List.mem_singleton] at hseg
      subst hseg
      exact ⟨hu1, hu2⟩
  · rw [List.foldl_append, ← hfold]
    rfl

theorem pathWF_noSlash {p : String} (h : PathWF p) : NoSlashArtifacts p := by
  obtain ⟨segs, hsegs, hfold⟩ := h
  subst hfold
  induction segs using List.reverseRecOn with
  | nil => exact ⟨by simp, by simp, by simp⟩
  | append_singleton l u ih =>
    rw [List.foldl_append]
    have hu := hsegs u (by simp)
    exact noSlash_join (ih (fun seg hseg => hsegs seg (List.mem_append_left _ hseg)))
      hu.1 hu.2

theorem join_eq_subscope (p u : String) (hu : u ≠ "") :
    (if p = "" then u else p ++ "/" ++ u) = join "/" p u := by
  unfold join
  by_cases hp : p = "" <;> simp [hp, hu]

theorem uniquify_good {name u : String}
    (hsrc : u = name ∨ ∃ i, u = numbered name i) (hne : name ≠ "")
    (hsf : '/' ∉ name.data) : u ≠ "" ∧ '/' ∉ u.data := by
  rcases hsrc with hsrc | ⟨i, hsrc⟩
  · subst hsrc
    exact ⟨hne, hsf⟩
  · subst hsrc
    exact ⟨numbered_ne_empty name i, slash_not_mem_numbered name i hsf⟩

theorem pathwf_step (st : St) (a : Act) (ha : ActSlashFree a)
    (h : ∀ sc ∈ st.scopes, PathWF sc.name) :
    ∀ sc ∈ (step st a).scopes, PathWF sc.name := by
  cases a with
  | root =>
    intro sc hsc
    have hstep : (step st .root).scopes
        = st.scopes ++ [⟨st.world.graphs, "", st.world.sets.length, "", st.world.maps.length⟩] :=
      rfl
    rw [hstep] at hsc
    simp only [List.mem_append, List.mem_singleton] at hsc
    rcases hsc with hsc | hsc
    · exact h sc hsc
    · subst hsc
      exact pathWF_empty
  | sub i name =>
    intro sc' hsc'
    cases hsc : st.scopes[i]? with
    | none =>
      simp only [step, hsc] at hsc'
      exact h sc' hsc'
    | some sc =>
      have hmem : sc ∈ st.scopes := List.getElem?_mem hsc
      by_cases hname : name = ""
      · subst hname
        simp only [step, hsc, newSubScope_empty_eq] at hsc'
        simp only [List.mem_append, List.mem_singleton] at hsc'
        rcases hsc' with hsc' | hsc'
        · exact h sc' hsc'
        · subst hsc'
          exact h sc hmem
      · obtain ⟨u, hsrc, hu⟩ := newSubScope_nonempty_eq sc name st.world hname
        simp only [step, hsc, hu] at hsc'
        simp only [List.mem_append, List.mem_singleton] at hsc'
        rcases hsc' with hsc' | hsc'
        · exact h sc' hsc'
        · subst hsc'
          simp only []
          have hgood := uniquify_good hsrc hname ha
          rw [join_eq_subscope sc.name u hgood.1]
          exact pathWF_extend u (h sc hmem) hgood.1 hgood.2
  | withName i name =>
    intro sc' hsc'
    cases hsc : st.scopes[i]? with
    | none =>
      simp only [step, hsc] at hsc'
      exact h sc' hsc'
    | some sc =>
      have hmem : sc ∈ st.scopes := List.getElem?_mem hsc
      simp only [step, hsc, withOpName] at hsc'
      simp only [List.mem_append, List.mem_singleton] at hsc'
      rcases hsc' with hsc' | hsc'
      · exact h sc' hsc'
      · subst hsc'
        exact h sc hmem
  | mint i dflt =>
    intro sc' hsc'
    cases hsc : st.scopes[i]? with
    | none =>
      simp only [step, hsc] at hsc'
      exact h sc' hsc'
    | some sc =>
      obtain ⟨k, mPre, hfresh, hkeys, heq⟩ := getUniqueNameForOp_spec sc dflt st.world
      simp only [step, hsc, heq] at hsc'
      exact h sc' hsc'

theorem pathwf_run : ∀ (acts : List Act) (st : St), (∀ a ∈ acts, ActSlashFree a) →
    (∀ sc ∈ st.scopes, PathWF sc.name) → ∀ sc ∈ (run acts st).scopes, PathWF sc.name := by
  intro acts
  induction acts with
  | nil => intro st _ h; exact h
  | cons a rest ih =>
    intro st hacts h
    exact ih (step st a) (fun a' ha' => hacts a' (List.mem_cons_of_mem a ha'))
      (pathwf_step st a (hacts a (List.mem_cons_self a rest)) h)

/-! Claim theorems. -/

/-- C1: global no-reuse of minted names.  Along any sequence of actions
from the initial state, any two mint results recorded against the same
op-count registry (the same scope, or any scope sharing the registry,
with any default/override combination) are distinct strings. -/
theorem mint_no_reuse_per_registry (acts : List Act) :
    ((run acts St.init).minted).Pairwise (fun a b => a.1 = b.1 → a.2 ≠ b.2) :=
  (inv_run acts St.init inv_init).mintedDistinct

/-- C2, counterexample: deriving a sub-scope with the empty string does
NOT share the current scope's sibling-name set: the derived scope holds a
freshly allocated registry (index 1, while the root holds index 0), and
behaviorally, a scope named `"foo"` can be derived once from the
empty-named sub-scope and once from the root without the second becoming
`"foo_1"`. -/
theorem empty_subscope_counterexample :
    ((run [.root, .sub 0 ""] St.init).scopes.getD 1 default).childrenNames
      ≠ ((run [.root, .sub 0 ""] St.init).scopes.getD 0 default).childrenNames ∧
    ((run [.root, .sub 0 "", .sub 1 "foo", .sub 0 "foo"] St.init).scopes.getD 2 default).name
      = "foo" ∧
    ((run [.root, .sub 0 "", .sub 1 "foo", .sub 0 "foo"] St.init).scopes.getD 3 default).name
      = "foo" := by
  decide

/-- C2, amended: deriving a sub-scope with the empty string yields a new
scope with identical path, sharing the current scope's op-count mapping
(and graph and override), but holding a freshly allocated empty
sibling-name set rather than sharing the current scope's one. -/
theorem empty_subscope_amended (sc : Scope) (w : World) :
    (newSubScope sc "" w).1.name = sc.name ∧
    (newSubScope sc "" w).1.opNames = sc.opNames ∧
    (newSubScope sc "" w).1.graph = sc.graph ∧
    (newSubScope sc "" w).1.opName = sc.opName ∧
    (newSubScope sc "" w).1.childrenNames = w.sets.length ∧
    (newSubScope sc "" w).2 = { w with sets := w.sets ++ [[]] } := by
  rw [newSubScope_empty_eq]
  exact ⟨rfl, rfl, rfl, rfl, rfl, rfl⟩

/-- C3, counterexample: after minting `"Add"` and `"Add_1"` on a fresh
root, the base `"Add"` is present with count 0, yet the candidate
`"Add_1"` IS already a primary key, so the occupied case does not resolve
in one retry: the returned name is `"Add_2"`, not
`join("/", path, "Add_1")`. -/
theorem mint_occupied_counterexample :
    mapLookup ((run [.root, .mint 0 "Add", .mint 0 "Add_1"] St.init).world.mapAt
        ((run [.root, .mint 0 "Add", .mint 0 "Add_1"] St.init).scopes.getD 0 default).opNames)
      "Add" = some 0 ∧
    numbered "Add" (0 + 1)
      ∈ keys ((run [.root, .mint 0 "Add", .mint 0 "Add_1"] St.init).world.mapAt
        ((run [.root, .mint 0 "Add", .mint 0 "Add_1"] St.init).scopes.getD 0 default).opNames) ∧
    (getUniqueNameForOp ((run [.root, .mint 0 "Add", .mint 0 "Add_1"] St.init).scopes.getD 0 default)
        "Add" (run [.root, .mint 0 "Add", .mint 0 "Add_1"] St.init).world).1
      ≠ join "/" ((run [.root, .mint 0 "Add", .mint 0 "Add_1"] St.init).scopes.getD 0 default).name
          (numbered "Add" (0 + 1)) ∧
    (getUniqueNameForOp ((run [.root, .mint 0 "Add", .mint 0 "Add_1"] St.init).scopes.getD 0 default)
        "Add" (run [.root, .mint 0 "Add", .mint 0 "Add_1"] St.init).world).1 = "Add_2" := by
  decide

/-- C3, amended: if the resolved base is present with count `n` AND the
candidate `"{base}_{n+1}"` is not itself already a primary key (which the
original claim wrongly asserted always holds), then the occupied case
resolves in exactly one retry: the stored count becomes `n + 1`, the
candidate is inserted fresh with count 0, and the returned name is
`join("/", path, "{base}_{n+1}")`. -/
theorem mint_occupied_amended (sc : Scope) (d : String) (w : World) (n : Nat)
    (hocc : mapLookup (w.mapAt sc.opNames) (if sc.opName = "" then d else sc.opName) = some n)
    (hfree : numbered (if sc.opName = "" then d else sc.opName) (n + 1)
      ∉ keys (w.mapAt sc.opNames)) :
    getUniqueNameForOp sc d w
      = (join "/" sc.name (numbered (if sc.opName = "" then d else sc.opName) (n + 1)),
         w.updateMap sc.opNames
           (mapUpdate (w.mapAt sc.opNames) (if sc.opName = "" then d else sc.opName) (n + 1)
             ++ [(numbered (if sc.opName = "" then d else sc.opName) (n + 1), 0)])) := by
  have hml : mintLoop (if sc.opName = "" then d else sc.opName)
      (mintFuel (w.mapAt sc.opNames)) (w.mapAt sc.opNames)
      (if sc.opName = "" then d else sc.opName)
      = some (numbered (if sc.opName = "" then d else sc.opName) (n + 1),
          mapUpdate (w.mapAt sc.opNames) (if sc.opName = "" then d else sc.opName) (n + 1)
            ++ [(numbered (if sc.opName = "" then d else sc.opName) (n + 1), 0)]) := by
    have h2 : mintFuel (w.mapAt sc.opNames)
        = (((w.mapAt sc.opNames).map
            fun p => 10 ^ maxKeyLen (w.mapAt sc.opNames) - p.2).sum + 1) + 1 := rfl
    rw [h2]
    unfold mintLoop
    rw [hocc]
    unfold mintLoop
    have hnone : mapLookup
        (mapUpdate (w.mapAt sc.opNames) (if sc.opName = "" then d else sc.opName) (n + 1))
        (numbered (if sc.opName = "" then d else sc.opName) (n + 1)) = none := by
      rw [mapLookup_eq_none_iff, keys_mapUpdate]
      exact hfree
    rw [hnone]
  simp only [getUniqueNameForOp]
  rw [hml]

/-- C3, witness for the amended theorem at a concrete state: base `"Add"`
present with count 0 and candidate `"Add_1"` vacant. -/
theorem mint_occupied_amended_witness :
    mapLookup [("Add", 0)] "Add" = some 0 ∧
    numbered "Add" 1 ∉ keys [("Add", 0)] ∧
    getUniqueNameForOp ⟨0, "", 0, "", 0⟩ "Add" ⟨1, [[]], [[("Add", 0)]]⟩
      = (join "/" "" (numbered "Add" 1),
         World.updateMap ⟨1, [[]], [[("Add", 0)]]⟩ 0
           (mapUpdate [("Add", 0)] "Add" 1 ++ [(numbered "Add" 1, 0)])) :=
  ⟨by decide, by decide,
    mint_occupied_amended ⟨0, "", 0, "", 0⟩ "Add" ⟨1, [[]], [[("Add", 0)]]⟩ 0
      (by decide) (by decide)⟩

/-- C4: sub-scope name uniquification.  From a fresh root, deriving
`"foo"` three times yields paths `"foo"`, `"foo_1"`, `"foo_2"`; from the
scope with path `"foo_2"`, deriving `"bar"` three times yields
`"foo_2/bar"`, `"foo_2/bar_1"`, `"foo_2/bar_2"`. -/
theorem subscope_uniquification_paths :
    ((run [.root, .sub 0 "foo", .sub 0 "foo", .sub 0 "foo",
        .sub 3 "bar", .sub 3 "bar", .sub 3 "bar"] St.init).scopes.getD 1 default).name = "foo" ∧
    ((run [.root, .sub 0 "foo", .sub 0 "foo", .sub 0 "foo",
        .sub 3 "bar", .sub 3 "bar", .sub 3 "bar"] St.init).scopes.getD 2 default).name = "foo_1" ∧
    ((run [.root, .sub 0 "foo", .sub 0 "foo", .sub 0 "foo",
        .sub 3 "bar", .sub 3 "bar", .sub 3 "bar"] St.init).scopes.getD 3 default).name = "foo_2" ∧
    ((run [.root, .sub 0 "foo", .sub 0 "foo", .sub 0 "foo",
        .sub 3 "bar", .sub 3 "bar", .sub 3 "bar"] St.init).scopes.getD 4 default).name
      = "foo_2/bar" ∧
    ((run [.root, .sub 0 "foo", .sub 0 "foo", .sub 0 "foo",
        .sub 3 "bar", .sub 3 "bar", .sub 3 "bar"] St.init).scopes.getD 5 default).name
      = "foo_2/bar_1" ∧
    ((run [.root, .sub 0 "foo", .sub 0 "foo", .sub 0 "foo",
        .sub 3 "bar", .sub 3 "bar", .sub 3 "bar"] St.init).scopes.getD 6 default).name
      = "foo_2/bar_2" := by
  decide

/-- C5: mint sequences.  On a fresh root, minting `"Add"` twice yields
`"Add"` then `"Add_1"`; under sub-scope `"foo"` (a fresh op-count
registry), `"foo/Add"` then `"foo/Add_1"`; with op-name override `"bar"`
(sharing `"foo"`'s registry), the override suppresses the default and the
results are `"foo/bar"` then `"foo/bar_1"`. -/
theorem mint_sequences :
    (run [.root, .mint 0 "Add", .mint 0 "Add", .sub 0 "foo", .mint 1 "Add", .mint 1 "Add",
        .withName 1 "bar", .mint 2 "Add", .mint 2 "Add"] St.init).minted
      = [(0, "Add"), (0, "Add_1"), (1, "foo/Add"), (1, "foo/Add_1"),
         (1, "foo/bar"), (1, "foo/bar_1")] := by
  decide

/-- C6: `with_op_name` is a pure restructuring: identical path, the very
same sibling-name and op-count registries, the new override installed,
and no registry mutation (the store is returned untouched). -/
theorem withOpName_frame (sc : Scope) (nm : String) (w : World) :
    (withOpName sc nm w).1.name = sc.name ∧
    (withOpName sc nm w).1.childrenNames = sc.childrenNames ∧
    (withOpName sc nm w).1.opNames = sc.opNames ∧
    (withOpName sc nm w).1.graph = sc.graph ∧
    (withOpName sc nm w).1.opName = nm ∧
    (withOpName sc nm w).2 = w :=
  ⟨rfl, rfl, rfl, rfl, rfl, rfl⟩

/-- C7: `new_sub_scope` propagates the graph handle shared and unchanged
(no new graph is ever allocated) and propagates the op-name override
unchanged, for every requested name. -/
theorem newSubScope_frame (sc : Scope) (nm : String) (w : World) :
    (newSubScope sc nm w).1.graph = sc.graph ∧
    (newSubScope sc nm w).2.graphs = w.graphs ∧
    (newSubScope sc nm w).1.opName = sc.opName := by
  by_cases h : nm = ""
  · subst h
    rw [newSubScope_empty_eq]
    exact ⟨rfl, rfl, rfl⟩
  · obtain ⟨u, _, hu⟩ := newSubScope_nonempty_eq sc nm w h
    rw [hu]
    exact ⟨rfl, rfl, rfl⟩

/-- C8, counterexample: with arbitrary string arguments the
well-formedness claim fails: deriving the sub-scope `"/"` from a fresh
root yields the path `"/"`, which begins (and ends) with a slash. -/
theorem path_wellformed_counterexample :
    ((run [.root, .sub 0 "/"] St.init).scopes.getD 1 default).name = "/" ∧
    ((run [.root, .sub 0 "/"] St.init).scopes.getD 1 default).name.data.head?
      = some '/' := by
  decide

/-- C8, amended: provided every requested sub-scope name is slash-free,
every scope reachable from the initial state has a path that is the
slash-join of zero or more non-empty slash-free uniquified segments, with
no leading slash, no trailing slash, and no two consecutive slashes. -/
theorem path_wellformed_amended (acts : List Act)
    (hsf : ∀ a ∈ acts, ActSlashFree a) :
    ∀ sc ∈ (run acts St.init).scopes, PathWF sc.name ∧ NoSlashArtifacts sc.name := by
  intro sc hsc
  have hwf := pathwf_run acts St.init hsf (by intro sc' h'; simp [St.init] at h') sc hsc
  exact ⟨hwf, pathWF_noSlash hwf⟩

/-- C8, witness: the amended theorem applied to the concrete slash-free
trace root / sub `"foo"` / sub `"bar"`. -/
theorem path_wellformed_amended_witness :
    (∀ a ∈ ([.root, .sub 0 "foo", .sub 1 "bar"] : List Act), ActSlashFree a) ∧
    ∀ sc ∈ (run [.root, .sub 0 "foo", .sub 1 "bar"] St.init).scopes,
      PathWF sc.name ∧ NoSlashArtifacts sc.name := by
  have hsf : ∀ a ∈ ([.root, .sub 0 "foo", .sub 1 "bar"] : List Act), ActSlashFree a := by
    intro a ha
    simp only [List.mem_cons, List.not_mem_nil, or_false] at ha
    rcases ha with rfl | rfl | rfl
    · exact trivial
    · show '/' ∉ "foo".data
      decide
    · show '/' ∉ "bar".data
      decide
  exact ⟨hsf, path_wellformed_amended _ hsf⟩

/-- C9: both uniquification loops terminate on every finite registry
state: the fuelled computations succeed at the stated fuel bounds
(`s.length + 1` for the sibling-name loop, `mintFuel m` for the mint
loop, including maps whose keys arose from overrides of the form
`"{base}_{k}"`) and are stable under any extra fuel, so each operation
computes a deterministic total result. -/
theorem loops_terminate (s : List String) (name : String) (i : Nat)
    (m : List (String × Nat)) (cand : String) (extra : Nat) :
    (uniquifyLoop s name (s.length + 1) i).isSome = true ∧
    uniquifyLoop s name (s.length + 1 + extra) i = uniquifyLoop s name (s.length + 1) i ∧
    (mintLoop name (mintFuel m) m cand).isSome = true ∧
    mintLoop name (mintFuel m + extra) m cand = mintLoop name (mintFuel m) m cand := by
  have h1 := uniquifyLoop_fuel s name i
  have h4 := mintLoop_fuel name m cand (numbered_key_bound name m)
  obtain ⟨r, hr⟩ := Option.isSome_iff_exists.mp h1
  obtain ⟨r2, hr2⟩ := Option.isSome_iff_exists.mp h4
  refine ⟨h1, ?_, h4, ?_⟩
  · rw [hr]
    exact uniquifyLoop_mono s name _ i r hr extra
  · rw [hr2]
    exact mintLoop_mono name _ m cand r2 hr2 extra

/-- C10: any two scopes reachable from the initial state that hold the
same op-count registry have identical paths — every sharing derivation
preserves the path, and every path-changing derivation allocates a fresh
registry. -/
theorem shared_map_same_path (acts : List Act) (sc1 sc2 : Scope)
    (h1 : sc1 ∈ (run acts St.init).scopes) (h2 : sc2 ∈ (run acts St.init).scopes)
    (hop : sc1.opNames = sc2.opNames) : sc1.name = sc2.name :=
  (inv_run acts St.init inv_init).sharedPath sc1 h1 sc2 h2 hop

/-- C10, witness: the root scope and its `with_op_name("x")` derivative
share registry 0 and indeed have the same (empty) path. -/
theorem shared_map_same_path_witness :
    ((⟨0, "", 0, "", 0⟩ : Scope) ∈ (run [.root, .withName 0 "x"] St.init).scopes) ∧
    ((⟨0, "", 0, "x", 0⟩ : Scope) ∈ (run [.root, .withName 0 "x"] St.init).scopes) ∧
    (⟨0, "", 0, "", 0⟩ : Scope).opNames = (⟨0, "", 0, "x", 0⟩ : Scope).opNames ∧
    (⟨0, "", 0, "", 0⟩ : Scope).name = (⟨0, "", 0, "x", 0⟩ : Scope).name :=
  ⟨by decide, by decide, rfl,
    shared_map_same_path [.root, .withName 0 "x"] ⟨0, "", 0, "", 0⟩ ⟨0, "", 0, "x", 0⟩
      (by decide) (by decide) rfl⟩

end ScopeRs
